import Mathlib

/-!
Verification of the canora curation core: the promotion state machine
(POST /api/works/[id]/promote), the work-update route (PATCH /api/works/[id]),
the edge registry (POST /api/edges), and the lineage graph builder
(GET /api/works/[id]/lineage), embedded as pure Lean functions over an
explicit store.
-/

deriving instance DecidableEq for Except

namespace Canora

/-- The JavaScript String.prototype.trim used by the routes: strip leading
and trailing whitespace (structurally recursive over the character list, so
that it evaluates inside proofs). -/
def jsTrim (s : String) : String :=
  ⟨((s.data.dropWhile Char.isWhitespace).reverse.dropWhile
      Char.isWhitespace).reverse⟩

/-- Work tier: JAM < PLATE < CANON (prisma enum WorkStatus). -/
inductive WorkStatus where
  | JAM
  | PLATE
  | CANON
deriving DecidableEq, Repr, Inhabited

/-- Edge type (prisma enum EdgeType). -/
inductive EdgeType where
  | FORK
  | MERGE
  | DERIVED
deriving DecidableEq, Repr, Inhabited

/-- A work row, restricted to the fields the routes under verification touch. -/
structure Work where
  id : String
  slug : String
  title : String
  description : Option String
  audioUrl : Option String
  status : WorkStatus
  canonLockedAt : Option Nat
  canonLockedByUserId : Option String
deriving DecidableEq, Repr, Inhabited

/-- A promotion-event row. -/
structure PromotionEvent where
  workId : String
  fromStatus : WorkStatus
  toStatus : WorkStatus
  justification : String
  signedByUserId : String
  signedByDisplayName : String
deriving DecidableEq, Repr, Inhabited

/-- A work-edge row. -/
structure WorkEdge where
  id : Nat
  fromWorkId : String
  toWorkId : String
  type : EdgeType
deriving DecidableEq, Repr, Inhabited

/-- The persistent store the routes read and write. -/
structure Store where
  works : List Work
  events : List PromotionEvent
  edges : List WorkEdge
deriving DecidableEq, Repr, Inhabited

/-- The error taxonomy of the routes (spec section 7). In the HTTP handlers
these are the 404 / 400-justification / 400-terminal / 403 / 409 responses. -/
inductive ApiError where
  | NotFound
  | ValidationError
  | TerminalState
  | ImmutableTarget
  | DuplicateEdge
deriving DecidableEq, Repr, Inhabited

/-- VALID_PROMOTIONS from the promote route: JAM maps to PLATE, PLATE to
CANON, CANON to nothing. -/
def VALID_PROMOTIONS : WorkStatus → Option WorkStatus
  | .JAM => some .PLATE
  | .PLATE => some .CANON
  | .CANON => none

/-- prisma.work.findFirst with OR of id and slug, as used by the promote,
lineage and PATCH routes. -/
def findWork (works : List Work) (idArg : String) : Option Work :=
  works.find? fun w => w.id == idArg || w.slug == idArg

/-- prisma.work.findUnique by id, as used by the edges route. -/
def findWorkById (works : List Work) (idArg : String) : Option Work :=
  works.find? fun w => w.id == idArg

/-- The justification guard of the promote route: the body field is missing
or its trimmed length is below 10. -/
def justificationInvalid : Option String → Bool
  | none => true
  | some s => (jsTrim s).length < 10

/-- authResult.user.name falling back to the literal used by the route. -/
def displayName : Option String → String
  | none => "Anonymous Curator"
  | some n => if n == "" then "Anonymous Curator" else n

/-- The PromotionEvent row inserted by the promote transaction. -/
def promotedEvent (work : Work) (nextStatus : WorkStatus)
    (justification : Option String) (curatorId : String)
    (curatorName : Option String) : PromotionEvent :=
  { workId := work.id
    fromStatus := work.status
    toStatus := nextStatus
    justification := jsTrim (justification.getD "")
    signedByUserId := curatorId
    signedByDisplayName := displayName curatorName }

/-- The work row written by the promote transaction: the new tier, and the
lock timestamp and locking curator when the target tier is CANON. -/
def promotedWork (work : Work) (nextStatus : WorkStatus) (curatorId : String)
    (now : Nat) : Work :=
  { work with
    status := nextStatus
    canonLockedAt :=
      if nextStatus = .CANON then some now else work.canonLockedAt
    canonLockedByUserId :=
      if nextStatus = .CANON then some curatorId
      else work.canonLockedByUserId }

/-- POST /api/works/[id]/promote. Checks the justification, resolves the
work by id or slug, consults VALID_PROMOTIONS, then in one transaction
inserts the PromotionEvent and updates the work (locking it when the target
tier is CANON). Returns the event, the updated work and the new store. -/
def promote (st : Store) (idArg : String) (justification : Option String)
    (curatorId : String) (curatorName : Option String) (now : Nat) :
    Except ApiError (PromotionEvent × Work × Store) :=
  if justificationInvalid justification then .error .ValidationError
  else
    match findWork st.works idArg with
    | none => .error .NotFound
    | some work =>
      match VALID_PROMOTIONS work.status with
      | none => .error .TerminalState
      | some nextStatus =>
        .ok (promotedEvent work nextStatus justification curatorId curatorName,
          promotedWork work nextStatus curatorId now,
          { st with
            events := st.events ++
              [promotedEvent work nextStatus justification curatorId curatorName]
            works := st.works.map fun w =>
              if w.id = work.id then promotedWork work nextStatus curatorId now
              else w })

/-- The store after a promote call: unchanged when the call fails. -/
def promoteStore (st : Store) (idArg : String) (justification : Option String)
    (curatorId : String) (curatorName : Option String) (now : Nat) : Store :=
  match promote st idArg justification curatorId curatorName now with
  | .ok (_, _, st') => st'
  | .error _ => st

/-- The work row written by PATCH: title updated when the field is truthy,
description trimmed with empty collapsing to null, audioUrl taken verbatim.
The tier and lock fields are never touched. -/
def patchedWork (existing : Work) (title : Option String)
    (description : Option (Option String)) (audioUrl : Option (Option String)) :
    Work :=
  { existing with
    title :=
      match title with
      | some t => if t == "" then existing.title else jsTrim t
      | none => existing.title
    description :=
      match description with
      | some (some s) => if jsTrim s == "" then none else some (jsTrim s)
      | some none => none
      | none => existing.description
    audioUrl :=
      match audioUrl with
      | some a => a
      | none => existing.audioUrl }

/-- PATCH /api/works/[id]. Resolves by id or slug, rejects CANON works, then
writes the patched row. -/
def updateWork (st : Store) (idArg : String) (title : Option String)
    (description : Option (Option String)) (audioUrl : Option (Option String)) :
    Except ApiError (Work × Store) :=
  match findWork st.works idArg with
  | none => .error .NotFound
  | some existing =>
    if existing.status = .CANON then .error .ImmutableTarget
    else
      .ok (patchedWork existing title description audioUrl,
        { st with
          works := st.works.map fun w =>
            if w.id = existing.id then patchedWork existing title description audioUrl
            else w })

/-- The store after a PATCH call: unchanged when the call fails. -/
def updateStore (st : Store) (idArg : String) (title : Option String)
    (description : Option (Option String)) (audioUrl : Option (Option String)) :
    Store :=
  match updateWork st idArg title description audioUrl with
  | .ok (_, st') => st'
  | .error _ => st

/-- The duplicate check of the edges route: first stored edge with the given
ordered (source, target) pair. -/
def findPair (edges : List WorkEdge) (fromWorkId toWorkId : String) :
    Option WorkEdge :=
  edges.find? fun e => e.fromWorkId == fromWorkId && e.toWorkId == toWorkId

/-- POST /api/edges. Resolves both endpoints by id, rejects a CANON target,
rejects a duplicate ordered pair, otherwise stores exactly one new edge. -/
def createEdge (st : Store) (fromWorkId toWorkId : String) (ty : EdgeType)
    (newEdgeId : Nat) : Except ApiError (WorkEdge × Store) :=
  match findWorkById st.works fromWorkId, findWorkById st.works toWorkId with
  | some _, some toWork =>
    if toWork.status = .CANON then .error .ImmutableTarget
    else
      match findPair st.edges fromWorkId toWorkId with
      | some _ => .error .DuplicateEdge
      | none =>
        let e : WorkEdge :=
          { id := newEdgeId, fromWorkId := fromWorkId
            toWorkId := toWorkId, type := ty }
        .ok (e, { st with edges := st.edges ++ [e] })
  | _, _ => .error .NotFound

/-- The store after a createEdge call: unchanged when the call fails. -/
def createEdgeStore (st : Store) (fromWorkId toWorkId : String) (ty : EdgeType)
    (newEdgeId : Nat) : Store :=
  match createEdge st fromWorkId toWorkId ty newEdgeId with
  | .ok (_, st') => st'
  | .error _ => st

/-- The mutating operations of the core, as one operation type. -/
inductive Op where
  | promoteOp (idArg : String) (justification : Option String)
      (curatorId : String) (curatorName : Option String) (now : Nat)
  | updateOp (idArg : String) (title : Option String)
      (description : Option (Option String)) (audioUrl : Option (Option String))
  | createEdgeOp (fromWorkId toWorkId : String) (ty : EdgeType) (newEdgeId : Nat)

/-- Apply one operation to the store, keeping the store on failure. -/
def applyOp (op : Op) (st : Store) : Store :=
  match op with
  | .promoteOp a j c n t => promoteStore st a j c n t
  | .updateOp a ti d au => updateStore st a ti d au
  | .createEdgeOp f t ty nid => createEdgeStore st f t ty nid

/-- One legal evolution step of a work's tier: unchanged, JAM to PLATE, or
PLATE to CANON. -/
def statusStep (a b : WorkStatus) : Prop :=
  b = a ∨ (a = .JAM ∧ b = .PLATE) ∨ (a = .PLATE ∧ b = .CANON)

/-- Traversal direction of the lineage BFS. -/
inductive Direction where
  | up
  | down
deriving DecidableEq, Repr, Inhabited

/-- A node of the lineage graph (LineageNode in src/types). -/
structure LineageNode where
  id : String
  slug : String
  title : String
  status : WorkStatus
  depth : Int
deriving DecidableEq, Repr, Inhabited

/-- An edge of the lineage graph (LineageEdge in src/types). -/
structure LineageEdge where
  id : Nat
  source : String
  target : String
  type : EdgeType
deriving DecidableEq, Repr, Inhabited

/-- A queue entry of the lineage BFS. -/
structure QueueItem where
  workId : String
  direction : Direction
  currentDepth : Nat
deriving DecidableEq, Repr, Inhabited

/-- The mutable state of the lineage BFS loop: the node map (association
list keyed by work id, in insertion order), the edge list, the visited set
and the FIFO queue. -/
structure BfsState where
  nodes : List (String × LineageNode)
  edges : List LineageEdge
  visited : List (String × Direction)
  queue : List QueueItem
deriving DecidableEq, Repr, Inhabited

/-- The relation join the route gets through prisma include: the work row
behind an edge endpoint (total, with a default row for a dangling id). -/
def joinWork (works : List Work) (wid : String) : Work :=
  (findWorkById works wid).getD default

/-- The LineageNode built for a newly discovered endpoint. -/
def mkNode (works : List Work) (wid : String) (d : Int) : LineageNode :=
  { id := wid, slug := (joinWork works wid).slug
    title := (joinWork works wid).title
    status := (joinWork works wid).status, depth := d }

/-- nodes.set guarded by nodes.has: first write wins. -/
def insertNode (nodes : List (String × LineageNode)) (k : String)
    (v : LineageNode) : List (String × LineageNode) :=
  if (nodes.lookup k).isSome then nodes else nodes ++ [(k, v)]

/-- The duplicate-pair test used before appending a downward edge. -/
def hasPair (es : List LineageEdge) (src tgt : String) : Bool :=
  es.any fun le => le.source == src && le.target == tgt

/-- Processing of one parent edge in the upward branch: insert the source
node if new at depth -(d+1), append the edge unconditionally, enqueue the
source upward at depth d+1. -/
def recordUpEdge (works : List Work) (d : Nat) (s : BfsState) (e : WorkEdge) :
    BfsState :=
  let v := mkNode works e.fromWorkId (-(Int.ofNat (d + 1)))
  let le : LineageEdge :=
    { id := e.id, source := e.fromWorkId, target := e.toWorkId, type := e.type }
  let s1 : BfsState := { s with nodes := insertNode s.nodes e.fromWorkId v }
  let s2 : BfsState := { s1 with edges := s1.edges ++ [le] }
  { s2 with queue := s2.queue ++ [⟨e.fromWorkId, .up, d + 1⟩] }

/-- Processing of one child edge in the downward branch: insert the target
node if new at depth d+1, append the edge unless the ordered pair is
already recorded, enqueue the target downward at depth d+1. -/
def recordDownEdge (works : List Work) (d : Nat) (s : BfsState) (e : WorkEdge) :
    BfsState :=
  let v := mkNode works e.toWorkId (Int.ofNat (d + 1))
  let le : LineageEdge :=
    { id := e.id, source := e.fromWorkId, target := e.toWorkId, type := e.type }
  let s1 : BfsState := { s with nodes := insertNode s.nodes e.toWorkId v }
  let s2 : BfsState :=
    if hasPair s1.edges e.fromWorkId e.toWorkId then s1
    else { s1 with edges := s1.edges ++ [le] }
  { s2 with queue := s2.queue ++ [⟨e.toWorkId, .down, d + 1⟩] }

/-- One iteration of the BFS while-loop: pop the head of the queue; skip it
when its depth reaches maxDepth or its (id, direction) key was already
visited; otherwise mark it visited and expand its parent or child edges. -/
def bfsStep (store : List WorkEdge) (works : List Work) (maxDepth : Nat)
    (s : BfsState) : BfsState :=
  match s.queue with
  | [] => s
  | item :: rest =>
    if maxDepth ≤ item.currentDepth then { s with queue := rest }
    else if (item.workId, item.direction) ∈ s.visited then { s with queue := rest }
    else
      let vis := s.visited ++ [(item.workId, item.direction)]
      let s0 : BfsState := { s with queue := rest, visited := vis }
      match item.direction with
      | .up =>
        (store.filter fun e => e.toWorkId == item.workId).foldl
          (recordUpEdge works item.currentDepth) s0
      | .down =>
        (store.filter fun e => e.fromWorkId == item.workId).foldl
          (recordDownEdge works item.currentDepth) s0

/-- The BFS while-loop, run for at most the given number of iterations. -/
def bfsAux (store : List WorkEdge) (works : List Work) (maxDepth : Nat) :
    Nat → BfsState → BfsState
  | 0, s => s
  | fuel + 1, s =>
    match s.queue with
    | [] => s
    | _ :: _ => bfsAux store works maxDepth fuel (bfsStep store works maxDepth s)

/-- All work ids occurring as an edge endpoint in the store. -/
def storeIds (store : List WorkEdge) : List String :=
  store.foldr (fun e acc => e.fromWorkId :: e.toWorkId :: acc) []

/-- The work ids the BFS can ever enqueue: the root and the edge endpoints. -/
def idUniverse (store : List WorkEdge) (rootId : String) : List String :=
  (rootId :: storeIds store).dedup

/-- The visit keys the BFS can ever mark: each reachable id in each
direction. -/
def keyUniverse (store : List WorkEdge) (rootId : String) :
    List (String × Direction) :=
  ((idUniverse store rootId).map fun i => (i, Direction.up)) ++
    ((idUniverse store rootId).map fun i => (i, Direction.down))

/-- Iterations sufficient for the queue to drain (proved below). -/
def bfsFuel (store : List WorkEdge) (rootId : String) : Nat :=
  2 + (store.length + 1) * (keyUniverse store rootId).length

/-- The initial BFS state: the root node at depth 0, and the root queued in
both directions. -/
def initState (root : Work) : BfsState :=
  { nodes := [(root.id,
      { id := root.id, slug := root.slug, title := root.title
        status := root.status, depth := 0 })]
    edges := []
    visited := []
    queue := [⟨root.id, .up, 0⟩, ⟨root.id, .down, 0⟩] }

/-- The value returned by the lineage route. -/
structure LineageGraph where
  nodes : List LineageNode
  edges : List LineageEdge
deriving DecidableEq, Repr, Inhabited

/-- GET /api/works/[id]/lineage: resolve the root by id or slug, run the
bidirectional BFS, and return the node map values with the edge list. -/
def buildGraph (st : Store) (idArg : String) (maxDepth : Nat) :
    Except ApiError LineageGraph :=
  match findWork st.works idArg with
  | none => .error .NotFound
  | some root =>
    let sF := bfsAux st.edges st.works maxDepth
      (bfsFuel st.edges root.id) (initState root)
    .ok { nodes := sF.nodes.map Prod.snd, edges := sF.edges }

/-- No ordered (source, target) pair occurs twice in an edge list. -/
def pairsNodup (es : List LineageEdge) : Prop :=
  (es.map fun e => (e.source, e.target)).Nodup

/-! ### Anatomy lemmas about promote (shared helpers) -/

theorem promote_invalid_eq {st : Store} {a c : String} {j n : Option String}
    {t : Nat} (hinv : justificationInvalid j = true) :
    promote st a j c n t = .error .ValidationError := by
  simp [promote, hinv]

theorem promote_notFound_eq {st : Store} {a c : String} {j n : Option String}
    {t : Nat} (hinv : justificationInvalid j = false)
    (hf : findWork st.works a = none) :
    promote st a j c n t = .error .NotFound := by
  simp [promote, hinv, hf]

theorem promote_terminal_eq {st : Store} {a c : String} {j n : Option String}
    {t : Nat} {work : Work} (hinv : justificationInvalid j = false)
    (hf : findWork st.works a = some work)
    (hv : VALID_PROMOTIONS work.status = none) :
    promote st a j c n t = .error .TerminalState := by
  simp [promote, hinv, hf, hv]

theorem promote_valid_eq {st : Store} {a c : String} {j n : Option String}
    {t : Nat} {work : Work} {next : WorkStatus}
    (hinv : justificationInvalid j = false)
    (hf : findWork st.works a = some work)
    (hv : VALID_PROMOTIONS work.status = some next) :
    promote st a j c n t = .ok (promotedEvent work next j c n,
      promotedWork work next c t,
      { st with
        events := st.events ++ [promotedEvent work next j c n]
        works := st.works.map fun w =>
          if w.id = work.id then promotedWork work next c t else w }) := by
  simp [promote, hinv, hf, hv]

theorem promote_ok_inv {st : Store} {a c : String} {j n : Option String}
    {t : Nat} {ev : PromotionEvent} {w' : Work} {st' : Store}
    (h : promote st a j c n t = .ok (ev, w', st')) :
    ∃ work next, justificationInvalid j = false ∧
      findWork st.works a = some work ∧
      VALID_PROMOTIONS work.status = some next ∧
      ev = promotedEvent work next j c n ∧
      w' = promotedWork work next c t ∧
      st' = { st with
        events := st.events ++ [ev]
        works := st.works.map fun w => if w.id = work.id then w' else w } := by
  unfold promote at h
  split at h
  · exact absurd h (by simp)
  next hinv =>
    rw [Bool.not_eq_true] at hinv
    split at h
    · exact absurd h (by simp)
    next work hf =>
      split at h
      · exact absurd h (by simp)
      next next hv =>
        simp only [Except.ok.injEq, Prod.mk.injEq] at h
        obtain ⟨hev, hw', hst'⟩ := h
        exact ⟨work, next, hinv, hf, hv, hev.symm, hw'.symm, by
          subst hev hw' hst'; rfl⟩

theorem promote_error_store {st : Store} {a c : String} {j n : Option String}
    {t : Nat} {e : ApiError} (h : promote st a j c n t = .error e) :
    promoteStore st a j c n t = st := by
  simp only [promoteStore, h]

theorem promote_is_error_of_invalid_or_canon {st : Store} {a c : String}
    {j n : Option String} {t : Nat} :
    (∀ w, findWork st.works a = some w → VALID_PROMOTIONS w.status = none) →
    ∃ e, promote st a j c n t = .error e := by
  intro hterm
  by_cases hinv : justificationInvalid j = true
  · exact ⟨_, promote_invalid_eq hinv⟩
  · rw [Bool.not_eq_true] at hinv
    cases hf : findWork st.works a with
    | none => exact ⟨_, promote_notFound_eq hinv hf⟩
    | some w => exact ⟨_, promote_terminal_eq hinv hf (hterm w hf)⟩

/-! ### Concrete fixtures -/

/-- A fresh JAM work. -/
def w0 : Work := ⟨"w1", "work-one", "Title", none, none, .JAM, none, none⟩

/-- A store holding just the fresh JAM work. -/
def st0 : Store := ⟨[w0], [], []⟩

/-- First scenario justification. -/
def j1 : String := "Exceptional craftsmanship and lasting cultural resonance."

/-- Second scenario justification. -/
def j2 : String := "Confirmed after community review period."

/-- The event recorded by the first scenario promotion. -/
def ev1 : PromotionEvent := ⟨"w1", .JAM, .PLATE, j1, "curator1", "Curator One"⟩

/-- The work after the first scenario promotion. -/
def wP : Work := { w0 with status := .PLATE }

/-- The store after the first scenario promotion. -/
def stP : Store := ⟨[wP], [ev1], []⟩

/-- The event recorded by the second scenario promotion. -/
def ev2 : PromotionEvent := ⟨"w1", .PLATE, .CANON, j2, "curator1", "Curator One"⟩

/-- The work after the second scenario promotion: CANON and locked. -/
def wC : Work :=
  { wP with
    status := .CANON
    canonLockedAt := some 200
    canonLockedByUserId := some "curator1" }

/-- The store after the second scenario promotion. -/
def stC : Store := ⟨[wC], [ev1, ev2], []⟩

/-! ### C2: promotion scenario and atomicity -/

/-- C2: from a JAM work, a valid promote yields tier PLATE, exactly one
PromotionEvent recording JAM to PLATE, and a null lock timestamp; a second
valid promote yields tier CANON with the lock timestamp and locking curator
set to the signing curator and one PromotionEvent recording PLATE to CANON;
and in every promotion the event insert and the work update are atomic: a
successful call returns a store holding exactly both writes, and a failed
call leaves the store untouched. -/
theorem promote_scenario_and_atomicity :
    (promote st0 "w1" (some j1) "curator1" (some "Curator One") 100 =
        .ok (ev1, wP, stP) ∧
      wP.status = .PLATE ∧ wP.canonLockedAt = none ∧ stP.events = [ev1] ∧
      ev1.fromStatus = .JAM ∧ ev1.toStatus = .PLATE) ∧
    (promote stP "w1" (some j2) "curator1" (some "Curator One") 200 =
        .ok (ev2, wC, stC) ∧
      wC.status = .CANON ∧ wC.canonLockedAt = some 200 ∧
      wC.canonLockedByUserId = some "curator1" ∧ stC.events = [ev1, ev2] ∧
      ev2.fromStatus = .PLATE ∧ ev2.toStatus = .CANON) ∧
    (∀ st a j c n t ev w' st', promote st a j c n t = .ok (ev, w', st') →
      st'.events = st.events ++ [ev] ∧
      (∃ work, findWork st.works a = some work ∧
        st'.works = st.works.map fun w => if w.id = work.id then w' else w) ∧
      st'.edges = st.edges) ∧
    (∀ st a j c n t e, promote st a j c n t = .error e →
      promoteStore st a j c n t = st) := by
  refine ⟨⟨?_, rfl, rfl, rfl, rfl, rfl⟩, ⟨?_, rfl, rfl, rfl, rfl, rfl, rfl⟩,
    ?_, ?_⟩
  · rfl
  · rfl
  · intro st a j c n t ev w' st' h
    obtain ⟨work, next, hinv, hf, hv, hev, hw', hst'⟩ := promote_ok_inv h
    subst hev hw' hst'
    exact ⟨rfl, ⟨work, hf, rfl⟩, rfl⟩
  · intro st a j c n t e h
    exact promote_error_store h

/-- C2 witness: the atomicity conjuncts applied at the concrete scenario
call and at a failing call. -/
theorem promote_scenario_and_atomicity_witness :
    (stP.events = st0.events ++ [ev1] ∧
      (∃ work, findWork st0.works "w1" = some work ∧
        stP.works = st0.works.map fun w => if w.id = work.id then wP else w) ∧
      stP.edges = st0.edges) ∧
    promoteStore st0 "w1" none "curator1" none 0 = st0 :=
  ⟨(promote_scenario_and_atomicity.2.2.1 st0 "w1" (some j1) "curator1"
      (some "Curator One") 100 ev1 wP stP
      promote_scenario_and_atomicity.1.1),
    promote_scenario_and_atomicity.2.2.2 st0 "w1" none "curator1" none 0
      .ValidationError (by decide)⟩

/-! ### C3: promote on a CANON work -/

/-- A CANON work with its lock metadata set. -/
def wCanon : Work :=
  ⟨"c1", "canon-one", "Canon", none, none, .CANON, some 10, some "curator0"⟩

/-- Store holding only the CANON work. -/
def stCanon : Store := ⟨[wCanon], [], []⟩

/-- C3 counterexample: a promote call on a CANON work whose justification is
too short fails with ValidationError, not TerminalState, because the
justification guard runs before the tier check. -/
theorem promote_canon_short_not_terminal :
    findWork stCanon.works "c1" = some wCanon ∧ wCanon.status = .CANON ∧
    promote stCanon "c1" (some "short") "c2" none 50 = .error .ValidationError ∧
    promote stCanon "c1" (some "short") "c2" none 50 ≠ .error .TerminalState := by
  decide

/-- C3 (amended): every promote call on a CANON work fails — with
TerminalState whenever the justification passes validation, ValidationError
otherwise — and in all cases inserts no PromotionEvent and leaves the store
unchanged. -/
theorem promote_canon_always_fails (st : Store) (a c : String)
    (j n : Option String) (t : Nat) (w : Work)
    (hf : findWork st.works a = some w) (hc : w.status = .CANON) :
    (justificationInvalid j = false →
      promote st a j c n t = .error .TerminalState) ∧
    (∃ e, promote st a j c n t = .error e) ∧
    promoteStore st a j c n t = st := by
  have hv : VALID_PROMOTIONS w.status = none := by rw [hc]; rfl
  obtain ⟨e, he⟩ :=
    @promote_is_error_of_invalid_or_canon st a c j n t
      (fun w' hw' => by
        rw [hf] at hw'
        injection hw' with h
        rw [← h]
        exact hv)
  exact ⟨fun hinv => promote_terminal_eq hinv hf hv, ⟨e, he⟩,
    promote_error_store he⟩

/-- C3 witness: the amended theorem applied to the concrete CANON store. -/
theorem promote_canon_always_fails_witness :
    promote stCanon "c1" (some j2) "c2" none 50 = .error .TerminalState ∧
    promoteStore stCanon "c1" (some j2) "c2" none 50 = stCanon :=
  ⟨(promote_canon_always_fails stCanon "c1" "c2" (some j2) none 50 wCanon
      (by decide) (by decide)).1 (by decide),
    (promote_canon_always_fails stCanon "c1" "c2" (some j2) none 50 wCanon
      (by decide) (by decide)).2.2⟩

/-! ### C4: validation order on an unresolved work -/

/-- A JAM work unrelated to the argument used in the C4 counterexample. -/
def wX : Work := ⟨"x1", "slug-x", "X", none, none, .JAM, none, none⟩

/-- Store holding only that work. -/
def stX : Store := ⟨[wX], [], []⟩

/-- C4 counterexample: with an unresolved work id and a short justification
the call fails ValidationError, not NotFound — the route validates the
justification before resolving the work. -/
theorem promote_unresolved_short_validation :
    findWork stX.works "ghost" = none ∧
    promote stX "ghost" (some "tiny") "c1" none 0 = .error .ValidationError ∧
    promote stX "ghost" (some "tiny") "c1" none 0 ≠ .error .NotFound := by
  decide

/-- C4 (amended): promote validates the justification first and resolves the
work second: a call whose id resolves to no work fails NotFound exactly when
the justification passes validation, and ValidationError otherwise. -/
theorem promote_validates_before_resolving (st : Store) (a c : String)
    (j n : Option String) (t : Nat) (hf : findWork st.works a = none) :
    (justificationInvalid j = false →
      promote st a j c n t = .error .NotFound) ∧
    (justificationInvalid j = true →
      promote st a j c n t = .error .ValidationError) :=
  ⟨fun hinv => promote_notFound_eq hinv hf,
    fun hinv => promote_invalid_eq hinv⟩

/-- C4 witness: the amended theorem applied at an unresolved id, once with a
valid and once with a missing justification. -/
theorem promote_validates_before_resolving_witness :
    promote stX "ghost" (some j2) "c1" none 0 = .error .NotFound ∧
    promote stX "ghost" none "c1" none 0 = .error .ValidationError :=
  ⟨(promote_validates_before_resolving stX "ghost" "c1" (some j2) none 0
      (by decide)).1 (by decide),
    (promote_validates_before_resolving stX "ghost" "c1" none none 0
      (by decide)).2 (by decide)⟩

/-! ### C5: short justification on an existing work -/

/-- C5: a promote call on an existing work whose trimmed justification is
shorter than 10 characters always fails ValidationError and causes no state
change; the guard is on the server path of every call. -/
theorem promote_short_justification_rejected (st : Store) (a c : String)
    (j : String) (n : Option String) (t : Nat) (w : Work)
    (_hf : findWork st.works a = some w) (hj : (jsTrim j).length < 10) :
    promote st a (some j) c n t = .error .ValidationError ∧
    promoteStore st a (some j) c n t = st := by
  have hinv : justificationInvalid (some j) = true := by
    simp [justificationInvalid, hj]
  exact ⟨promote_invalid_eq hinv, promote_error_store (promote_invalid_eq hinv)⟩

/-- C5 witness: the theorem applied to a concrete store and short
justification. -/
theorem promote_short_justification_rejected_witness :
    promote stX "x1" (some "nope") "c1" none 7 = .error .ValidationError ∧
    promoteStore stX "x1" (some "nope") "c1" none 7 = stX :=
  promote_short_justification_rejected stX "x1" "c1" "nope" none 7 wX
    (by decide) (by decide)

/-! ### C6: createEdge -/

/-- After appending the matching edge, the duplicate check finds it. -/
theorem findPair_append_hit (es : List WorkEdge) (f t : String) (nid : Nat)
    (ty : EdgeType) (h : findPair es f t = none) :
    findPair (es ++ [⟨nid, f, t, ty⟩]) f t = some ⟨nid, f, t, ty⟩ := by
  unfold findPair at h ⊢
  rw [List.find?_append, h]
  simp

/-- C6: createEdge succeeds iff both endpoints resolve by id, the target is
not CANON, and the ordered pair is not yet stored; the failures are NotFound,
ImmutableTarget and DuplicateEdge respectively; success stores exactly the
one new edge (after which the identical call yields DuplicateEdge), and every
failure leaves the store untouched. -/
theorem createEdge_spec (st : Store) (f t : String) (ty : EdgeType)
    (nid : Nat) :
    ((∃ e st', createEdge st f t ty nid = .ok (e, st')) ↔
      ((findWorkById st.works f).isSome ∧
        (∃ tw, findWorkById st.works t = some tw ∧ tw.status ≠ .CANON) ∧
        findPair st.edges f t = none)) ∧
    (findWorkById st.works f = none ∨ findWorkById st.works t = none →
      createEdge st f t ty nid = .error .NotFound) ∧
    (∀ fw tw, findWorkById st.works f = some fw →
      findWorkById st.works t = some tw → tw.status = .CANON →
      createEdge st f t ty nid = .error .ImmutableTarget) ∧
    (∀ fw tw ex, findWorkById st.works f = some fw →
      findWorkById st.works t = some tw → tw.status ≠ .CANON →
      findPair st.edges f t = some ex →
      createEdge st f t ty nid = .error .DuplicateEdge) ∧
    (∀ e st', createEdge st f t ty nid = .ok (e, st') →
      e = ⟨nid, f, t, ty⟩ ∧ st'.edges = st.edges ++ [e] ∧
      st'.works = st.works ∧ st'.events = st.events ∧
      createEdge st' f t ty nid = .error .DuplicateEdge) ∧
    (∀ err, createEdge st f t ty nid = .error err →
      createEdgeStore st f t ty nid = st) := by
  have hstore : ∀ err, createEdge st f t ty nid = .error err →
      createEdgeStore st f t ty nid = st := by
    intro err h
    simp only [createEdgeStore, h]
  cases hf : findWorkById st.works f with
  | none =>
    have hc : createEdge st f t ty nid = .error .NotFound := by
      simp [createEdge, hf]
    refine ⟨⟨?_, ?_⟩, fun _ => hc, ?_, ?_, ?_, hstore⟩
    · rintro ⟨e, st', h⟩
      rw [hc] at h
      cases h
    · rintro ⟨hs, -, -⟩
      simp at hs
    · intro fw tw hfw htw hcn
      cases hfw
    · intro fw tw ex hfw htw hcn hp
      cases hfw
    · intro e st' h
      rw [hc] at h
      cases h
  | some fw =>
    cases ht : findWorkById st.works t with
    | none =>
      have hc : createEdge st f t ty nid = .error .NotFound := by
        simp [createEdge, hf, ht]
      refine ⟨⟨?_, ?_⟩, fun _ => hc, ?_, ?_, ?_, hstore⟩
      · rintro ⟨e, st', h⟩
        rw [hc] at h
        cases h
      · rintro ⟨-, ⟨tw, htw, -⟩, -⟩
        cases htw
      · intro fw' tw htw' htw hcn
        cases htw
      · intro fw' tw ex hfw' htw hcn hp
        cases htw
      · intro e st' h
        rw [hc] at h
        cases h
    | some tw =>
      by_cases hcanon : tw.status = .CANON
      · have hc : createEdge st f t ty nid = .error .ImmutableTarget := by
          simp [createEdge, hf, ht, hcanon]
        refine ⟨⟨?_, ?_⟩, ?_, fun _ _ _ _ _ => hc, ?_, ?_, hstore⟩
        · rintro ⟨e, st', h⟩
          rw [hc] at h
          cases h
        · rintro ⟨-, ⟨tw', htw', hne⟩, -⟩
          injection htw' with htw'
          exact absurd (htw' ▸ hcanon) hne
        · rintro (h | h) <;> cases h
        · intro fw' tw' ex hfw' htw' hcn hp
          injection htw' with htw'
          exact absurd (htw' ▸ hcanon) hcn
        · intro e st' h
          rw [hc] at h
          cases h
      · cases hp : findPair st.edges f t with
        | some ex =>
          have hc : createEdge st f t ty nid = .error .DuplicateEdge := by
            simp [createEdge, hf, ht, hcanon, hp]
          refine ⟨⟨?_, ?_⟩, ?_, ?_, fun _ _ _ _ _ _ _ => hc, ?_, hstore⟩
          · rintro ⟨e, st', h⟩
            rw [hc] at h
            cases h
          · rintro ⟨-, -, hpn⟩
            cases hpn
          · rintro (h | h) <;> cases h
          · intro fw' tw' hfw' htw' hcn
            injection htw' with htw'
            exact absurd (htw' ▸ hcn) hcanon
          · intro e st' h
            rw [hc] at h
            cases h
        | none =>
          have hok : createEdge st f t ty nid =
              .ok (⟨nid, f, t, ty⟩,
                { st with edges := st.edges ++ [⟨nid, f, t, ty⟩] }) := by
            simp [createEdge, hf, ht, hcanon, hp]
          refine ⟨⟨fun _ => ?_, fun _ => ⟨_, _, hok⟩⟩, ?_, ?_, ?_, ?_, hstore⟩
          · exact ⟨by simp, ⟨tw, rfl, hcanon⟩, rfl⟩
          · rintro (h | h) <;> cases h
          · intro fw' tw' hfw' htw' hcn
            injection htw' with htw'
            exact absurd (htw' ▸ hcn) hcanon
          · intro fw' tw' ex hfw' htw' hcn hpx
            cases hpx
          · intro e st' h
            rw [hok] at h
            injection h with h
            injection h with he h
            subst he
            subst h
            refine ⟨rfl, rfl, rfl, rfl, ?_⟩
            have hp' := findPair_append_hit st.edges f t nid ty hp
            simp [createEdge, hf, ht, hcanon, hp']

/-- C6 witness: the spec theorem applied at a concrete store, exercising the
success case and, through it, the duplicate rejection. -/
theorem createEdge_spec_witness :
    (⟨1, "w1", "x1", EdgeType.FORK⟩ : WorkEdge) = ⟨1, "w1", "x1", .FORK⟩ ∧
    (⟨[w0, wX], [], [⟨1, "w1", "x1", EdgeType.FORK⟩]⟩ : Store).edges =
      ([] : List WorkEdge) ++ [⟨1, "w1", "x1", .FORK⟩] ∧
    (⟨[w0, wX], [], [⟨1, "w1", "x1", EdgeType.FORK⟩]⟩ : Store).works = [w0, wX] ∧
    (⟨[w0, wX], [], [⟨1, "w1", "x1", EdgeType.FORK⟩]⟩ : Store).events =
      ([] : List PromotionEvent) ∧
    createEdge ⟨[w0, wX], [], [⟨1, "w1", "x1", EdgeType.FORK⟩]⟩ "w1" "x1"
      .FORK 1 = .error .DuplicateEdge :=
  (createEdge_spec ⟨[w0, wX], [], []⟩ "w1" "x1" .FORK 1).2.2.2.2.1
    ⟨1, "w1", "x1", .FORK⟩ ⟨[w0, wX], [], [⟨1, "w1", "x1", EdgeType.FORK⟩]⟩
    (by decide)

/-! ### C1: tier monotonicity and the CANON freeze -/

/-- Relation between a work before and after one operation: same id, tier
moved at most one legal step forward, and a CANON work entirely unchanged. -/
def tierEvolves (w w' : Work) : Prop :=
  w'.id = w.id ∧ statusStep w.status w'.status ∧ (w.status = .CANON → w' = w)

theorem forall₂_tierEvolves_refl (ws : List Work) :
    List.Forall₂ tierEvolves ws ws :=
  List.forall₂_same.mpr fun _ _ => ⟨rfl, Or.inl rfl, fun _ => rfl⟩

theorem valid_promotion_step {a next : WorkStatus}
    (hv : VALID_PROMOTIONS a = some next) :
    (a = .JAM ∧ next = .PLATE) ∨ (a = .PLATE ∧ next = .CANON) := by
  cases a with
  | JAM =>
    injection hv with h
    exact Or.inl ⟨rfl, h.symm⟩
  | PLATE =>
    injection hv with h
    exact Or.inr ⟨rfl, h.symm⟩
  | CANON => cases hv

theorem forall₂_tierEvolves_map (ws : List Work) (work u : Work)
    (hids : (ws.map Work.id).Nodup) (hmem : work ∈ ws)
    (hid : u.id = work.id) (hstep : statusStep work.status u.status)
    (hnc : work.status ≠ .CANON) :
    List.Forall₂ tierEvolves ws
      (ws.map fun w => if w.id = work.id then u else w) := by
  rw [List.forall₂_map_right_iff, List.forall₂_same]
  intro w hw
  by_cases h : w.id = work.id
  · have hww : w = work :=
      List.inj_on_of_nodup_map hids hw hmem (by rw [h])
    rw [if_pos h]
    subst hww
    exact ⟨hid, hstep, fun hcan => absurd hcan hnc⟩
  · rw [if_neg h]
    exact ⟨rfl, Or.inl rfl, fun _ => rfl⟩

theorem updateWork_ok_inv {st : Store} {a : String} {ti : Option String}
    {d au : Option (Option String)} {w' : Work} {st' : Store}
    (h : updateWork st a ti d au = .ok (w', st')) :
    ∃ existing, findWork st.works a = some existing ∧
      existing.status ≠ .CANON ∧ w' = patchedWork existing ti d au ∧
      st' = { st with works := st.works.map fun w =>
        if w.id = existing.id then w' else w } := by
  unfold updateWork at h
  split at h
  · exact absurd h (by simp)
  next existing hf =>
    split at h
    · exact absurd h (by simp)
    next hnc =>
      simp only [Except.ok.injEq, Prod.mk.injEq] at h
      obtain ⟨hw', hst'⟩ := h
      exact ⟨existing, hf, hnc, hw'.symm, by subst hw' hst'; rfl⟩

theorem createEdge_ok_inv {st : Store} {f t : String} {ty : EdgeType}
    {nid : Nat} {e : WorkEdge} {st' : Store}
    (h : createEdge st f t ty nid = .ok (e, st')) :
    st'.works = st.works ∧ st'.events = st.events ∧
    st'.edges = st.edges ++ [e] := by
  unfold createEdge at h
  split at h
  · split at h
    · exact absurd h (by simp)
    · split at h
      · exact absurd h (by simp)
      · simp only [Except.ok.injEq, Prod.mk.injEq] at h
        obtain ⟨he, hst'⟩ := h
        subst he hst'
        exact ⟨rfl, rfl, rfl⟩
  · exact absurd h (by simp)

/-- C1: under any operation of the core (promote, work update, edge
creation), every work's tier moves at most one legal step forward along
JAM, PLATE, CANON — never backwards, never skipping, and any recorded
promotion event is JAM-to-PLATE or PLATE-to-CANON, never a self-transition —
and a work whose tier is CANON is left with every field unchanged: promote
refuses it and the work-update operation rejects it. -/
theorem tier_monotonic_and_canon_frozen (st : Store) (op : Op)
    (hids : (st.works.map Work.id).Nodup) :
    List.Forall₂ tierEvolves st.works (applyOp op st).works ∧
    (∀ ev ∈ (applyOp op st).events, ev ∈ st.events ∨
      (ev.fromStatus = .JAM ∧ ev.toStatus = .PLATE) ∨
      (ev.fromStatus = .PLATE ∧ ev.toStatus = .CANON)) := by
  cases op with
  | promoteOp a j c n t =>
    simp only [applyOp]
    cases hps : promote st a j c n t with
    | error e =>
      rw [promote_error_store hps]
      exact ⟨forall₂_tierEvolves_refl _, fun ev hev => Or.inl hev⟩
    | ok res =>
      obtain ⟨ev, w', st'⟩ := res
      obtain ⟨work, next, hinv, hf, hv, hev, hw', hst'⟩ := promote_ok_inv hps
      have hstep := valid_promotion_step hv
      have hnc : work.status ≠ .CANON := by
        intro hc
        rw [hc] at hv
        cases hv
      have hps' : promoteStore st a j c n t = st' := by
        simp only [promoteStore, hps]
      rw [hps', hst']
      constructor
      · subst hw'
        exact forall₂_tierEvolves_map st.works work _ hids
          (List.mem_of_find?_eq_some hf) rfl (Or.inr hstep) hnc
      · intro ev' hev'
        rcases List.mem_append.mp hev' with h | h
        · exact Or.inl h
        · have hev'' : ev' = ev := by simpa using h
          subst hev'' hev
          rcases hstep with ⟨h1, h2⟩ | ⟨h1, h2⟩
          · exact Or.inr (Or.inl ⟨h1, h2⟩)
          · exact Or.inr (Or.inr ⟨h1, h2⟩)
  | updateOp a ti d au =>
    simp only [applyOp]
    cases hup : updateWork st a ti d au with
    | error e =>
      have hs : updateStore st a ti d au = st := by
        simp only [updateStore, hup]
      rw [hs]
      exact ⟨forall₂_tierEvolves_refl _, fun ev hev => Or.inl hev⟩
    | ok res =>
      obtain ⟨w', st'⟩ := res
      obtain ⟨existing, hf, hnc, hw', hst'⟩ := updateWork_ok_inv hup
      have hs : updateStore st a ti d au = st' := by
        simp only [updateStore, hup]
      rw [hs, hst']
      constructor
      · subst hw'
        exact forall₂_tierEvolves_map st.works existing _ hids
          (List.mem_of_find?_eq_some hf) rfl (Or.inl rfl) hnc
      · intro ev hev
        exact Or.inl hev
  | createEdgeOp f t2 ty nid =>
    simp only [applyOp]
    cases hce : createEdge st f t2 ty nid with
    | error e =>
      have hs : createEdgeStore st f t2 ty nid = st := by
        simp only [createEdgeStore, hce]
      rw [hs]
      exact ⟨forall₂_tierEvolves_refl _, fun ev hev => Or.inl hev⟩
    | ok res =>
      obtain ⟨e, st'⟩ := res
      obtain ⟨hw, hev, -⟩ := createEdge_ok_inv hce
      have hs : createEdgeStore st f t2 ty nid = st' := by
        simp only [createEdgeStore, hce]
      rw [hs, hw, hev]
      exact ⟨forall₂_tierEvolves_refl _, fun ev hev => Or.inl hev⟩

/-- C1 witness: the invariant applied to the CANON store under a work-update
operation. -/
theorem tier_monotonic_and_canon_frozen_witness :
    List.Forall₂ tierEvolves stCanon.works
      (applyOp (.updateOp "c1" (some "New") none none) stCanon).works ∧
    (∀ ev ∈ (applyOp (.updateOp "c1" (some "New") none none) stCanon).events,
      ev ∈ stCanon.events ∨
      (ev.fromStatus = .JAM ∧ ev.toStatus = .PLATE) ∨
      (ev.fromStatus = .PLATE ∧ ev.toStatus = .CANON)) :=
  tier_monotonic_and_canon_frozen stCanon (.updateOp "c1" (some "New") none none)
    (by decide)

/-! ### C10: resolution by id or slug -/

theorem find?_eq_of_mem_unique {α : Type} (p : α → Bool) (l : List α) (x : α)
    (hmem : x ∈ l) (hx : p x = true)
    (hothers : ∀ y ∈ l, y ≠ x → p y = false) :
    l.find? p = some x := by
  induction l with
  | nil => cases hmem
  | cons a as ih =>
    by_cases hax : a = x
    · subst hax
      rw [List.find?_cons_of_pos _ hx]
    · have hpa : p a = false := hothers a (List.mem_cons_self a as) hax
      have hmem' : x ∈ as := by
        rcases List.mem_cons.mp hmem with h | h
        · exact absurd h.symm hax
        · exact h
      rw [List.find?_cons_of_neg _ (by simp [hpa])]
      exact ih hmem' fun y hy hyx => hothers y (List.mem_cons_of_mem a hy) hyx

theorem findWork_by_id {works : List Work} {w : Work} (hmem : w ∈ works)
    (huniq : ∀ w' ∈ works, w' ≠ w → w'.id ≠ w.id ∧ w'.slug ≠ w.id) :
    findWork works w.id = some w :=
  find?_eq_of_mem_unique _ works w hmem (by simp) fun y hy hyx => by
    have h := huniq y hy hyx
    simp [h.1, h.2]

theorem findWork_by_slug {works : List Work} {w : Work} (hmem : w ∈ works)
    (huniq : ∀ w' ∈ works, w' ≠ w → w'.id ≠ w.slug ∧ w'.slug ≠ w.slug) :
    findWork works w.slug = some w :=
  find?_eq_of_mem_unique _ works w hmem (by simp) fun y hy hyx => by
    have h := huniq y hy hyx
    simp [h.1, h.2]

theorem findWork_eq_none {works : List Work} {a : String}
    (h : ∀ w ∈ works, w.id ≠ a ∧ w.slug ≠ a) :
    findWork works a = none :=
  List.find?_eq_none.mpr fun w hw => by
    have hh := h w hw
    simp [hh.1, hh.2]

theorem findWorkById_eq_none {works : List Work} {a : String}
    (h : ∀ w ∈ works, w.id ≠ a) :
    findWorkById works a = none :=
  List.find?_eq_none.mpr fun w hw => by simp [h w hw]

/-- C10 (amended): promote and buildGraph resolve their work argument by id
or by unique slug — with the work's slug they behave identically to the
work's id — and an argument matching neither any id nor any slug fails
NotFound for buildGraph unconditionally and for promote whenever the
justification passes validation (the justification guard runs first);
createEdge resolves its endpoints by id only, so an argument that is not
any work's id fails NotFound even when it is some work's slug. -/
theorem resolution_by_id_or_slug :
    (∀ (st : Store) (w : Work) (j : Option String) (c : String)
        (n : Option String) (t N : Nat), w ∈ st.works →
      (∀ w' ∈ st.works, w' ≠ w → w'.id ≠ w.id ∧ w'.slug ≠ w.id ∧
        w'.id ≠ w.slug ∧ w'.slug ≠ w.slug) →
      promote st w.slug j c n t = promote st w.id j c n t ∧
      buildGraph st w.slug N = buildGraph st w.id N) ∧
    (∀ (st : Store) (a : String) (j : Option String) (c : String)
        (n : Option String) (t N : Nat),
      (∀ w ∈ st.works, w.id ≠ a ∧ w.slug ≠ a) →
      buildGraph st a N = .error .NotFound ∧
      (justificationInvalid j = false →
        promote st a j c n t = .error .NotFound)) ∧
    (∀ (st : Store) (f t2 : String) (ty : EdgeType) (nid : Nat),
      (∀ w ∈ st.works, w.id ≠ f) →
      createEdge st f t2 ty nid = .error .NotFound) := by
  refine ⟨?_, ?_, ?_⟩
  · intro st w j c n t N hmem huniq
    have hid : findWork st.works w.id = some w :=
      findWork_by_id hmem fun w' hw' hne =>
        ⟨(huniq w' hw' hne).1, (huniq w' hw' hne).2.1⟩
    have hslug : findWork st.works w.slug = some w :=
      findWork_by_slug hmem fun w' hw' hne =>
        ⟨(huniq w' hw' hne).2.2.1, (huniq w' hw' hne).2.2.2⟩
    constructor
    · unfold promote
      rw [hid, hslug]
    · unfold buildGraph
      rw [hid, hslug]
  · intro st a j c n t N h
    have hf : findWork st.works a = none := findWork_eq_none h
    exact ⟨by simp [buildGraph, hf], fun hinv => promote_notFound_eq hinv hf⟩
  · intro st f t2 ty nid h
    have hf : findWorkById st.works f = none := findWorkById_eq_none h
    simp [createEdge, hf]

/-- C10 counterexample (to the claim as stated): with an argument resolving
to no work and a short justification, promote fails ValidationError rather
than NotFound. -/
theorem resolution_unresolved_promote_not_notfound :
    (∀ w ∈ stX.works, w.id ≠ "ghost2" ∧ w.slug ≠ "ghost2") ∧
    promote stX "ghost2" (some "bad") "c1" none 1 = .error .ValidationError ∧
    promote stX "ghost2" (some "bad") "c1" none 1 ≠ .error .NotFound := by
  decide

/-- C10 witness: slug and id calls coincide on the concrete store, and
createEdge rejects a slug-only argument with NotFound. -/
theorem resolution_by_id_or_slug_witness :
    (promote stX "slug-x" (some j2) "c1" none 5 =
        promote stX "x1" (some j2) "c1" none 5 ∧
      buildGraph stX "slug-x" 3 = buildGraph stX "x1" 3) ∧
    createEdge stX "slug-x" "x1" .FORK 9 = .error .NotFound :=
  ⟨resolution_by_id_or_slug.1 stX wX (some j2) "c1" none 5 3 (by decide)
      (by decide),
    resolution_by_id_or_slug.2.2 stX "slug-x" "x1" .FORK 9 (by decide)⟩

/-! ### BFS shape and equation lemmas (shared helpers) -/

theorem recordUpEdge_queue (works : List Work) (d : Nat) (s : BfsState)
    (e : WorkEdge) :
    (recordUpEdge works d s e).queue = s.queue ++ [⟨e.fromWorkId, .up, d + 1⟩] :=
  rfl

theorem recordUpEdge_visited (works : List Work) (d : Nat) (s : BfsState)
    (e : WorkEdge) : (recordUpEdge works d s e).visited = s.visited :=
  rfl

theorem recordUpEdge_nodes (works : List Work) (d : Nat) (s : BfsState)
    (e : WorkEdge) :
    (recordUpEdge works d s e).nodes =
      insertNode s.nodes e.fromWorkId
        (mkNode works e.fromWorkId (-(Int.ofNat (d + 1)))) :=
  rfl

theorem recordUpEdge_edges (works : List Work) (d : Nat) (s : BfsState)
    (e : WorkEdge) :
    (recordUpEdge works d s e).edges =
      s.edges ++ [⟨e.id, e.fromWorkId, e.toWorkId, e.type⟩] :=
  rfl

theorem recordDownEdge_queue (works : List Work) (d : Nat) (s : BfsState)
    (e : WorkEdge) :
    (recordDownEdge works d s e).queue = s.queue ++ [⟨e.toWorkId, .down, d + 1⟩] := by
  unfold recordDownEdge
  dsimp only
  split <;> rfl

theorem recordDownEdge_visited (works : List Work) (d : Nat) (s : BfsState)
    (e : WorkEdge) : (recordDownEdge works d s e).visited = s.visited := by
  unfold recordDownEdge
  dsimp only
  split <;> rfl

theorem recordDownEdge_nodes (works : List Work) (d : Nat) (s : BfsState)
    (e : WorkEdge) :
    (recordDownEdge works d s e).nodes =
      insertNode s.nodes e.toWorkId (mkNode works e.toWorkId (Int.ofNat (d + 1))) := by
  unfold recordDownEdge
  dsimp only
  split <;> rfl

theorem recordDownEdge_edges (works : List Work) (d : Nat) (s : BfsState)
    (e : WorkEdge) :
    (recordDownEdge works d s e).edges =
      if hasPair s.edges e.fromWorkId e.toWorkId then s.edges
      else s.edges ++ [⟨e.id, e.fromWorkId, e.toWorkId, e.type⟩] := by
  unfold recordDownEdge
  dsimp only
  split <;> rfl

theorem bfsStep_queue_nil (store : List WorkEdge) (works : List Work)
    (maxDepth : Nat) (s : BfsState) (hq : s.queue = []) :
    bfsStep store works maxDepth s = s := by
  unfold bfsStep
  rw [hq]

theorem bfsStep_skip_depth (store : List WorkEdge) (works : List Work)
    (maxDepth : Nat) (s : BfsState) (item : QueueItem) (rest : List QueueItem)
    (hq : s.queue = item :: rest) (hge : maxDepth ≤ item.currentDepth) :
    bfsStep store works maxDepth s = { s with queue := rest } := by
  unfold bfsStep
  rw [hq]
  dsimp only
  rw [if_pos hge]

theorem bfsStep_skip_visited (store : List WorkEdge) (works : List Work)
    (maxDepth : Nat) (s : BfsState) (item : QueueItem) (rest : List QueueItem)
    (hq : s.queue = item :: rest) (hlt : item.currentDepth < maxDepth)
    (hv : (item.workId, item.direction) ∈ s.visited) :
    bfsStep store works maxDepth s = { s with queue := rest } := by
  unfold bfsStep
  rw [hq]
  dsimp only
  rw [if_neg (by omega), if_pos hv]

theorem bfsStep_expand_up (store : List WorkEdge) (works : List Work)
    (maxDepth : Nat) (s : BfsState) (item : QueueItem) (rest : List QueueItem)
    (hq : s.queue = item :: rest) (hlt : item.currentDepth < maxDepth)
    (hnv : (item.workId, item.direction) ∉ s.visited)
    (hdir : item.direction = .up) :
    bfsStep store works maxDepth s =
      (store.filter fun e => e.toWorkId == item.workId).foldl
        (recordUpEdge works item.currentDepth)
        { s with
          queue := rest
          visited := s.visited ++ [(item.workId, item.direction)] } := by
  unfold bfsStep
  rw [hq]
  dsimp only
  rw [if_neg (by omega), if_neg hnv, hdir]

theorem bfsStep_expand_down (store : List WorkEdge) (works : List Work)
    (maxDepth : Nat) (s : BfsState) (item : QueueItem) (rest : List QueueItem)
    (hq : s.queue = item :: rest) (hlt : item.currentDepth < maxDepth)
    (hnv : (item.workId, item.direction) ∉ s.visited)
    (hdir : item.direction = .down) :
    bfsStep store works maxDepth s =
      (store.filter fun e => e.fromWorkId == item.workId).foldl
        (recordDownEdge works item.currentDepth)
        { s with
          queue := rest
          visited := s.visited ++ [(item.workId, item.direction)] } := by
  unfold bfsStep
  rw [hq]
  dsimp only
  rw [if_neg (by omega), if_neg hnv, hdir]

theorem bfsAux_queue_nil (store : List WorkEdge) (works : List Work)
    (maxDepth : Nat) (n : Nat) (s : BfsState) (hq : s.queue = []) :
    bfsAux store works maxDepth n s = s := by
  cases n with
  | zero => rfl
  | succ n =>
    unfold bfsAux
    rw [hq]

theorem bfsAux_succ_cons (store : List WorkEdge) (works : List Work)
    (maxDepth : Nat) (n : Nat) (s : BfsState) (item : QueueItem)
    (rest : List QueueItem) (hq : s.queue = item :: rest) :
    bfsAux store works maxDepth (n + 1) s =
      bfsAux store works maxDepth n (bfsStep store works maxDepth s) := by
  have hstep : bfsAux store works maxDepth (n + 1) s =
      match s.queue with
      | [] => s
      | _ :: _ => bfsAux store works maxDepth n (bfsStep store works maxDepth s) :=
    rfl
  rw [hstep, hq]

/-! ### C7: edge duplication in the lineage graph -/

theorem hasPair_false_not_mem {es : List LineageEdge} {src tgt : String}
    (h : hasPair es src tgt = false) :
    (src, tgt) ∉ es.map fun e => (e.source, e.target) := by
  intro hmem
  obtain ⟨e, he, heq⟩ := List.mem_map.mp hmem
  unfold hasPair at h
  rw [List.any_eq_false] at h
  have := h e he
  simp only [Prod.mk.injEq] at heq
  simp [heq.1, heq.2] at this

theorem recordDownEdge_pairsNodup (works : List Work) (d : Nat) (s : BfsState)
    (e : WorkEdge) (h : pairsNodup s.edges) :
    pairsNodup (recordDownEdge works d s e).edges := by
  rw [pairsNodup, recordDownEdge_edges]
  cases hp : hasPair s.edges e.fromWorkId e.toWorkId with
  | true =>
    rw [if_pos rfl]
    exact h
  | false =>
    rw [if_neg (by simp)]
    rw [List.map_append, List.nodup_append]
    refine ⟨h, by simp, ?_⟩
    intro p hp1 hp2
    simp only [List.map_cons, List.map_nil, List.mem_singleton] at hp2
    subst hp2
    exact hasPair_false_not_mem hp hp1

theorem foldl_recordDownEdge_pairsNodup (works : List Work) (d : Nat)
    (es : List WorkEdge) (s : BfsState) (h : pairsNodup s.edges) :
    pairsNodup ((es.foldl (recordDownEdge works d) s).edges) := by
  induction es generalizing s with
  | nil => exact h
  | cons e es ih =>
    rw [List.foldl_cons]
    exact ih _ (recordDownEdge_pairsNodup works d s e h)

/-- C7 (amended): before appending a downward-discovered edge the BFS skips
it if an edge for the same ordered pair is already recorded, so processing a
downward queue item never introduces a duplicate ordered (source, target)
pair into the edge list; upward-discovered edges are appended
unconditionally, so an edge first recorded downward and rediscovered upward
can appear twice (see the counterexample). -/
theorem bfsStep_down_preserves_pairsNodup (store : List WorkEdge)
    (works : List Work) (maxDepth : Nat) (s : BfsState) (item : QueueItem)
    (rest : List QueueItem) (hq : s.queue = item :: rest)
    (hdir : item.direction = .down) (h : pairsNodup s.edges) :
    pairsNodup (bfsStep store works maxDepth s).edges := by
  by_cases hge : maxDepth ≤ item.currentDepth
  · rw [bfsStep_skip_depth store works maxDepth s item rest hq hge]
    exact h
  · by_cases hv : (item.workId, item.direction) ∈ s.visited
    · rw [bfsStep_skip_visited store works maxDepth s item rest hq (by omega) hv]
      exact h
    · rw [bfsStep_expand_down store works maxDepth s item rest hq (by omega) hv hdir]
      exact foldl_recordDownEdge_pairsNodup works item.currentDepth _ _ h

/-- Work A of the cyclic fixture. -/
def wA : Work := ⟨"A", "slug-a", "Work A", none, none, .JAM, none, none⟩

/-- Work B of the cyclic fixture. -/
def wB : Work := ⟨"B", "slug-b", "Work B", none, none, .JAM, none, none⟩

/-- A store with a two-edge cycle between A and B: one stored edge per
ordered pair. -/
def cycleStore : Store :=
  ⟨[wA, wB], [], [⟨1, "A", "B", .FORK⟩, ⟨2, "B", "A", .DERIVED⟩]⟩

/-- C7 counterexample: on the cyclic store (which holds at most one edge per
ordered pair) the lineage graph of A at depth 2 records the edge A→B twice —
once discovered downward from A, once rediscovered upward from B, where the
append has no duplicate guard. -/
theorem buildGraph_records_duplicate_edge :
    ((cycleStore.edges.map fun e => (e.fromWorkId, e.toWorkId)).Nodup) ∧
    (buildGraph cycleStore "A" 2).toOption.map
      (fun g => g.edges.countP fun e => e.source == "A" && e.target == "B") =
      some 2 := by
  decide

/-- C7 witness: the amended theorem applied to a concrete down step of the
cyclic traversal. -/
theorem bfsStep_down_preserves_pairsNodup_witness :
    pairsNodup (bfsStep cycleStore.edges cycleStore.works 2
      ⟨[], [], [], [⟨"A", .down, 0⟩]⟩).edges :=
  bfsStep_down_preserves_pairsNodup cycleStore.edges cycleStore.works 2
    ⟨[], [], [], [⟨"A", .down, 0⟩]⟩ ⟨"A", .down, 0⟩ [] rfl rfl
    (by exact List.nodup_nil)

/-! ### C9: termination of the lineage BFS -/

/-- Keys of the key universe not yet visited. -/
def freeKeys (store : List WorkEdge) (rootId : String)
    (visited : List (String × Direction)) : Nat :=
  ((keyUniverse store rootId).toFinset \ visited.toFinset).card

/-- Termination measure of the BFS loop: queue length plus a weighted count
of unvisited keys. -/
def bfsMeasure (store : List WorkEdge) (rootId : String) (s : BfsState) : Nat :=
  s.queue.length + (store.length + 1) * freeKeys store rootId s.visited

/-- Every queued work id lies in the id universe of the store and root. -/
def queueInv (store : List WorkEdge) (rootId : String) (s : BfsState) : Prop :=
  ∀ item ∈ s.queue, item.workId ∈ idUniverse store rootId

theorem mem_storeIds_from {store : List WorkEdge} {e : WorkEdge}
    (he : e ∈ store) : e.fromWorkId ∈ storeIds store := by
  induction store with
  | nil => cases he
  | cons a as ih =>
    show e.fromWorkId ∈ a.fromWorkId :: a.toWorkId :: storeIds as
    rcases List.mem_cons.mp he with h | h
    · subst h
      exact List.mem_cons_self _ _
    · exact List.mem_cons_of_mem _ (List.mem_cons_of_mem _ (ih h))

theorem mem_storeIds_to {store : List WorkEdge} {e : WorkEdge}
    (he : e ∈ store) : e.toWorkId ∈ storeIds store := by
  induction store with
  | nil => cases he
  | cons a as ih =>
    show e.toWorkId ∈ a.fromWorkId :: a.toWorkId :: storeIds as
    rcases List.mem_cons.mp he with h | h
    · subst h
      exact List.mem_cons_of_mem _ (List.mem_cons_self _ _)
    · exact List.mem_cons_of_mem _ (List.mem_cons_of_mem _ (ih h))

theorem from_mem_idUniverse {store : List WorkEdge} {e : WorkEdge}
    (rootId : String) (he : e ∈ store) :
    e.fromWorkId ∈ idUniverse store rootId := by
  unfold idUniverse
  rw [List.mem_dedup]
  exact List.mem_cons_of_mem _ (mem_storeIds_from he)

theorem to_mem_idUniverse {store : List WorkEdge} {e : WorkEdge}
    (rootId : String) (he : e ∈ store) :
    e.toWorkId ∈ idUniverse store rootId := by
  unfold idUniverse
  rw [List.mem_dedup]
  exact List.mem_cons_of_mem _ (mem_storeIds_to he)

theorem root_mem_idUniverse (store : List WorkEdge) (rootId : String) :
    rootId ∈ idUniverse store rootId := by
  unfold idUniverse
  rw [List.mem_dedup]
  exact List.mem_cons_self _ _

theorem key_mem_keyUniverse {store : List WorkEdge} {rootId i : String}
    (dir : Direction) (h : i ∈ idUniverse store rootId) :
    (i, dir) ∈ keyUniverse store rootId := by
  unfold keyUniverse
  cases dir with
  | up => exact List.mem_append_left _ (List.mem_map_of_mem _ h)
  | down => exact List.mem_append_right _ (List.mem_map_of_mem _ h)

theorem freeKeys_visit {store : List WorkEdge} {rootId : String}
    {visited : List (String × Direction)} {k : String × Direction}
    (hk : k ∈ keyUniverse store rootId) (hnv : k ∉ visited) :
    freeKeys store rootId (visited ++ [k]) + 1 = freeKeys store rootId visited := by
  unfold freeKeys
  have hins : (visited ++ [k]).toFinset = insert k visited.toFinset := by
    rw [List.toFinset_append]
    simp [Finset.insert_eq, Finset.union_comm]
  rw [hins, Finset.sdiff_insert]
  have hmem : k ∈ (keyUniverse store rootId).toFinset \ visited.toFinset :=
    Finset.mem_sdiff.mpr ⟨List.mem_toFinset.mpr hk,
      fun hc => hnv (List.mem_toFinset.mp hc)⟩
  rw [Finset.card_erase_of_mem hmem]
  have hpos : 0 < ((keyUniverse store rootId).toFinset \ visited.toFinset).card :=
    Finset.card_pos.mpr ⟨k, hmem⟩
  omega

theorem foldl_recordUpEdge_shape (works : List Work) (d : Nat)
    (es : List WorkEdge) (s : BfsState) :
    ((es.foldl (recordUpEdge works d) s).queue.length =
      s.queue.length + es.length) ∧
    ((es.foldl (recordUpEdge works d) s).visited = s.visited) ∧
    (∀ item ∈ (es.foldl (recordUpEdge works d) s).queue,
      item ∈ s.queue ∨ ∃ e ∈ es, item.workId = e.fromWorkId) := by
  induction es generalizing s with
  | nil => exact ⟨by simp, rfl, fun item h => Or.inl h⟩
  | cons e es ih =>
    rw [List.foldl_cons]
    obtain ⟨ihq, ihv, ihm⟩ := ih (recordUpEdge works d s e)
    refine ⟨?_, ?_, ?_⟩
    · rw [ihq, recordUpEdge_queue]
      simp only [List.length_append, List.length_cons, List.length_nil]
      omega
    · rw [ihv, recordUpEdge_visited]
    · intro item h
      rcases ihm item h with h' | ⟨e', he', heq⟩
      · rw [recordUpEdge_queue] at h'
        rcases List.mem_append.mp h' with h'' | h''
        · exact Or.inl h''
        · rw [List.mem_singleton] at h''
          subst h''
          exact Or.inr ⟨e, List.mem_cons_self _ _, rfl⟩
      · exact Or.inr ⟨e', List.mem_cons_of_mem _ he', heq⟩

theorem foldl_recordDownEdge_shape (works : List Work) (d : Nat)
    (es : List WorkEdge) (s : BfsState) :
    ((es.foldl (recordDownEdge works d) s).queue.length =
      s.queue.length + es.length) ∧
    ((es.foldl (recordDownEdge works d) s).visited = s.visited) ∧
    (∀ item ∈ (es.foldl (recordDownEdge works d) s).queue,
      item ∈ s.queue ∨ ∃ e ∈ es, item.workId = e.toWorkId) := by
  induction es generalizing s with
  | nil => exact ⟨by simp, rfl, fun item h => Or.inl h⟩
  | cons e es ih =>
    rw [List.foldl_cons]
    obtain ⟨ihq, ihv, ihm⟩ := ih (recordDownEdge works d s e)
    refine ⟨?_, ?_, ?_⟩
    · rw [ihq, recordDownEdge_queue]
      simp only [List.length_append, List.length_cons, List.length_nil]
      omega
    · rw [ihv, recordDownEdge_visited]
    · intro item h
      rcases ihm item h with h' | ⟨e', he', heq⟩
      · rw [recordDownEdge_queue] at h'
        rcases List.mem_append.mp h' with h'' | h''
        · exact Or.inl h''
        · rw [List.mem_singleton] at h''
          subst h''
          exact Or.inr ⟨e, List.mem_cons_self _ _, rfl⟩
      · exact Or.inr ⟨e', List.mem_cons_of_mem _ he', heq⟩

theorem bfsStep_decreases (store : List WorkEdge) (works : List Work)
    (maxDepth : Nat) (rootId : String) (s : BfsState)
    (hq : queueInv store rootId s) (hnd : s.visited.Nodup)
    (hne : s.queue ≠ []) :
    bfsMeasure store rootId (bfsStep store works maxDepth s) <
      bfsMeasure store rootId s ∧
    queueInv store rootId (bfsStep store works maxDepth s) ∧
    (bfsStep store works maxDepth s).visited.Nodup := by
  obtain ⟨item, rest, hq'⟩ : ∃ item rest, s.queue = item :: rest := by
    cases hcase : s.queue with
    | nil => exact absurd hcase hne
    | cons a b => exact ⟨a, b, rfl⟩
  by_cases hge : maxDepth ≤ item.currentDepth
  · rw [bfsStep_skip_depth store works maxDepth s item rest hq' hge]
    refine ⟨?_, ?_, hnd⟩
    · unfold bfsMeasure
      dsimp only
      rw [hq']
      simp only [List.length_cons]
      omega
    · intro it hit
      exact hq it (by rw [hq']; exact List.mem_cons_of_mem _ hit)
  · by_cases hv : (item.workId, item.direction) ∈ s.visited
    · rw [bfsStep_skip_visited store works maxDepth s item rest hq' (by omega) hv]
      refine ⟨?_, ?_, hnd⟩
      · unfold bfsMeasure
        dsimp only
        rw [hq']
        simp only [List.length_cons]
        omega
      · intro it hit
        exact hq it (by rw [hq']; exact List.mem_cons_of_mem _ hit)
    · have hkey : (item.workId, item.direction) ∈ keyUniverse store rootId :=
        key_mem_keyUniverse _ (hq item (by rw [hq']; exact List.mem_cons_self _ _))
      have hfree := freeKeys_visit hkey hv
      have hndv : (s.visited ++ [(item.workId, item.direction)]).Nodup := by
        rw [List.nodup_append]
        exact ⟨hnd, List.nodup_singleton _, fun a ha hb => by
          rw [List.mem_singleton] at hb
          subst hb
          exact hv ha⟩
      cases hdir : item.direction with
      | up =>
        rw [bfsStep_expand_up store works maxDepth s item rest hq' (by omega)
          hv hdir]
        obtain ⟨hlen, hvis, hmem⟩ := foldl_recordUpEdge_shape works
          item.currentDepth (store.filter fun e => e.toWorkId == item.workId)
          { s with
            queue := rest
            visited := s.visited ++ [(item.workId, item.direction)] }
        refine ⟨?_, ?_, ?_⟩
        · unfold bfsMeasure
          rw [hlen, hvis]
          dsimp only
          rw [hq', hdir]
          have hple : (store.filter fun e => e.toWorkId == item.workId).length ≤
              store.length := List.length_filter_le _ _
          rw [hdir] at hfree
          rw [← hfree, Nat.mul_succ]
          simp only [List.length_cons]
          omega
        · intro it hit
          rcases hmem it hit with h' | ⟨e', he', heq⟩
          · exact hq it (by rw [hq']; exact List.mem_cons_of_mem _ h')
          · rw [heq]
            exact from_mem_idUniverse rootId (List.mem_filter.mp he').1
        · rw [hvis]
          dsimp only
          rw [hdir]
          rw [hdir] at hndv
          exact hndv
      | down =>
        rw [bfsStep_expand_down store works maxDepth s item rest hq' (by omega)
          hv hdir]
        obtain ⟨hlen, hvis, hmem⟩ := foldl_recordDownEdge_shape works
          item.currentDepth (store.filter fun e => e.fromWorkId == item.workId)
          { s with
            queue := rest
            visited := s.visited ++ [(item.workId, item.direction)] }
        refine ⟨?_, ?_, ?_⟩
        · unfold bfsMeasure
          rw [hlen, hvis]
          dsimp only
          rw [hq', hdir]
          have hple : (store.filter fun e => e.fromWorkId == item.workId).length ≤
              store.length := List.length_filter_le _ _
          rw [hdir] at hfree
          rw [← hfree, Nat.mul_succ]
          simp only [List.length_cons]
          omega
        · intro it hit
          rcases hmem it hit with h' | ⟨e', he', heq⟩
          · exact hq it (by rw [hq']; exact List.mem_cons_of_mem _ h')
          · rw [heq]
            exact to_mem_idUniverse rootId (List.mem_filter.mp he').1
        · rw [hvis]
          dsimp only
          rw [hdir]
          rw [hdir] at hndv
          exact hndv

theorem bfsAux_drains (store : List WorkEdge) (works : List Work)
    (maxDepth : Nat) (rootId : String) :
    ∀ (fuel : Nat) (s : BfsState), queueInv store rootId s → s.visited.Nodup →
      bfsMeasure store rootId s ≤ fuel →
      (bfsAux store works maxDepth fuel s).queue = [] ∧
      (bfsAux store works maxDepth fuel s).visited.Nodup := by
  intro fuel
  induction fuel with
  | zero =>
    intro s hq hnd hm
    have h0 : s.queue.length = 0 := by
      unfold bfsMeasure at hm
      omega
    exact ⟨List.length_eq_zero.mp h0, hnd⟩
  | succ fuel ih =>
    intro s hq hnd hm
    cases hqe : s.queue with
    | nil =>
      rw [bfsAux_queue_nil store works maxDepth (fuel + 1) s hqe]
      exact ⟨hqe, hnd⟩
    | cons item rest =>
      rw [bfsAux_succ_cons store works maxDepth fuel s item rest hqe]
      obtain ⟨hlt, hq2, hnd2⟩ := bfsStep_decreases store works maxDepth rootId s
        hq hnd (by rw [hqe]; simp)
      exact ih (bfsStep store works maxDepth s) hq2 hnd2 (by omega)

/-- C9: for every edge store, work table, depth bound and root, the lineage
BFS drains its queue within the bfsFuel iteration bound used by buildGraph —
the visited set keyed by (workId, direction), which never acquires a
duplicate key, bounds the number of expansions — so buildGraph terminates
even when the edge store contains cycles. -/
theorem bfs_always_terminates (store : List WorkEdge) (works : List Work)
    (maxDepth : Nat) (root : Work) :
    (bfsAux store works maxDepth (bfsFuel store root.id)
      (initState root)).queue = [] ∧
    (bfsAux store works maxDepth (bfsFuel store root.id)
      (initState root)).visited.Nodup := by
  apply bfsAux_drains store works maxDepth root.id
  · intro item hitem
    have hcases : item = ⟨root.id, .up, 0⟩ ∨ item = ⟨root.id, .down, 0⟩ := by
      simpa [initState] using hitem
    rcases hcases with h | h <;> rw [h] <;>
      exact root_mem_idUniverse store root.id
  · exact List.nodup_nil
  · unfold bfsMeasure bfsFuel freeKeys
    have hcard : ((keyUniverse store root.id).toFinset).card ≤
        (keyUniverse store root.id).length := List.toFinset_card_le _
    simp only [initState, List.toFinset_nil, Finset.sdiff_empty,
      List.length_cons, List.length_nil]
    have := Nat.mul_le_mul_left (store.length + 1) hcard
    omega

/-! ### C8: depth bounds and first-write-wins in the lineage graph -/

theorem lookup_mono_append {l₁ l₂ : List (String × LineageNode)} {k : String}
    {v : LineageNode} (h : l₁.lookup k = some v) :
    (l₁ ++ l₂).lookup k = some v := by
  rw [List.lookup_append, h]
  rfl

theorem insertNode_lookup_mono {nodes : List (String × LineageNode)}
    {k : String} {v : LineageNode} (k' : String) (v' : LineageNode)
    (h : nodes.lookup k = some v) :
    (insertNode nodes k' v').lookup k = some v := by
  unfold insertNode
  split
  · exact h
  · exact lookup_mono_append h

theorem foldl_recordUpEdge_lookup_mono (works : List Work) (d : Nat)
    (es : List WorkEdge) {s : BfsState} {k : String} {v : LineageNode}
    (h : s.nodes.lookup k = some v) :
    (es.foldl (recordUpEdge works d) s).nodes.lookup k = some v := by
  induction es generalizing s with
  | nil => exact h
  | cons e es ih =>
    rw [List.foldl_cons]
    apply ih
    rw [recordUpEdge_nodes]
    exact insertNode_lookup_mono _ _ h

theorem foldl_recordDownEdge_lookup_mono (works : List Work) (d : Nat)
    (es : List WorkEdge) {s : BfsState} {k : String} {v : LineageNode}
    (h : s.nodes.lookup k = some v) :
    (es.foldl (recordDownEdge works d) s).nodes.lookup k = some v := by
  induction es generalizing s with
  | nil => exact h
  | cons e es ih =>
    rw [List.foldl_cons]
    apply ih
    rw [recordDownEdge_nodes]
    exact insertNode_lookup_mono _ _ h

theorem bfsStep_lookup_mono (store : List WorkEdge) (works : List Work)
    (maxDepth : Nat) {s : BfsState} {k : String} {v : LineageNode}
    (h : s.nodes.lookup k = some v) :
    (bfsStep store works maxDepth s).nodes.lookup k = some v := by
  cases hq : s.queue with
  | nil =>
    rw [bfsStep_queue_nil store works maxDepth s hq]
    exact h
  | cons item rest =>
    by_cases hge : maxDepth ≤ item.currentDepth
    · rw [bfsStep_skip_depth store works maxDepth s item rest hq hge]
      exact h
    · by_cases hv : (item.workId, item.direction) ∈ s.visited
      · rw [bfsStep_skip_visited store works maxDepth s item rest hq
          (by omega) hv]
        exact h
      · cases hdir : item.direction with
        | up =>
          rw [bfsStep_expand_up store works maxDepth s item rest hq
            (by omega) hv hdir]
          exact foldl_recordUpEdge_lookup_mono works item.currentDepth _ h
        | down =>
          rw [bfsStep_expand_down store works maxDepth s item rest hq
            (by omega) hv hdir]
          exact foldl_recordDownEdge_lookup_mono works item.currentDepth _ h

theorem bfsAux_lookup_mono (store : List WorkEdge) (works : List Work)
    (maxDepth : Nat) (n : Nat) {s : BfsState} {k : String} {v : LineageNode}
    (h : s.nodes.lookup k = some v) :
    (bfsAux store works maxDepth n s).nodes.lookup k = some v := by
  induction n generalizing s with
  | zero => exact h
  | succ n ih =>
    cases hq : s.queue with
    | nil =>
      rw [bfsAux_queue_nil store works maxDepth (n + 1) s hq]
      exact h
    | cons item rest =>
      rw [bfsAux_succ_cons store works maxDepth n s item rest hq]
      exact ih (bfsStep_lookup_mono store works maxDepth h)

/-- Invariant of every node-map entry: consistent key, depth within the
bound, only the root at depth zero, negative depth only for an edge source,
positive depth only for an edge target. -/
def nodesInv (store : List WorkEdge) (rootId : String) (rootNode : LineageNode)
    (maxDepth : Nat) (s : BfsState) : Prop :=
  ∀ p ∈ s.nodes, p.2.id = p.1 ∧ p.2.depth.natAbs ≤ maxDepth ∧
    (p.2.depth = 0 → p.1 = rootId ∧ p.2 = rootNode) ∧
    (p.2.depth < 0 → ∃ e ∈ store, e.fromWorkId = p.1) ∧
    (0 < p.2.depth → ∃ e ∈ store, e.toWorkId = p.1)

theorem insertNode_forall {P : String × LineageNode → Prop}
    {nodes : List (String × LineageNode)} {k : String} {v : LineageNode}
    (hinv : ∀ p ∈ nodes, P p) (hkv : P (k, v)) :
    ∀ p ∈ insertNode nodes k v, P p := by
  unfold insertNode
  split
  · exact hinv
  · intro p hp
    rcases List.mem_append.mp hp with h | h
    · exact hinv p h
    · rw [List.mem_singleton] at h
      subst h
      exact hkv

theorem foldl_recordUpEdge_nodesInv (store : List WorkEdge) (rootId : String)
    (rootNode : LineageNode) (maxDepth : Nat) (works : List Work) (d : Nat)
    (es : List WorkEdge) (s : BfsState) (hd : d < maxDepth) :
    (∀ e ∈ es, e ∈ store) →
    nodesInv store rootId rootNode maxDepth s →
    nodesInv store rootId rootNode maxDepth
      (es.foldl (recordUpEdge works d) s) := by
  induction es generalizing s with
  | nil => exact fun _ hinv => hinv
  | cons e es ih =>
    intro hes hinv
    rw [List.foldl_cons]
    apply ih _ (fun e' he' => hes e' (List.mem_cons_of_mem _ he'))
    intro p hp
    rw [recordUpEdge_nodes] at hp
    refine insertNode_forall hinv ⟨rfl, ?_, ?_, ?_, ?_⟩ p hp
    · show (-(Int.ofNat (d + 1))).natAbs ≤ maxDepth
      simp only [Int.ofNat_eq_natCast]
      omega
    · intro h0
      have h0' : -(Int.ofNat (d + 1)) = 0 := h0
      simp only [Int.ofNat_eq_natCast] at h0'
      omega
    · intro hneg
      exact ⟨e, hes e (List.mem_cons_self _ _), rfl⟩
    · intro hpos
      have hpos' : 0 < -(Int.ofNat (d + 1)) := hpos
      simp only [Int.ofNat_eq_natCast] at hpos'
      omega

theorem foldl_recordDownEdge_nodesInv (store : List WorkEdge) (rootId : String)
    (rootNode : LineageNode) (maxDepth : Nat) (works : List Work) (d : Nat)
    (es : List WorkEdge) (s : BfsState) (hd : d < maxDepth) :
    (∀ e ∈ es, e ∈ store) →
    nodesInv store rootId rootNode maxDepth s →
    nodesInv store rootId rootNode maxDepth
      (es.foldl (recordDownEdge works d) s) := by
  induction es generalizing s with
  | nil => exact fun _ hinv => hinv
  | cons e es ih =>
    intro hes hinv
    rw [List.foldl_cons]
    apply ih _ (fun e' he' => hes e' (List.mem_cons_of_mem _ he'))
    intro p hp
    rw [recordDownEdge_nodes] at hp
    refine insertNode_forall hinv ⟨rfl, ?_, ?_, ?_, ?_⟩ p hp
    · show (Int.ofNat (d + 1)).natAbs ≤ maxDepth
      simp only [Int.ofNat_eq_natCast]
      omega
    · intro h0
      have h0' : Int.ofNat (d + 1) = 0 := h0
      simp only [Int.ofNat_eq_natCast] at h0'
      omega
    · intro hneg
      have hneg' : Int.ofNat (d + 1) < 0 := hneg
      simp only [Int.ofNat_eq_natCast] at hneg'
      omega
    · intro hpos
      exact ⟨e, hes e (List.mem_cons_self _ _), rfl⟩

theorem bfsStep_nodesInv (store : List WorkEdge) (works : List Work)
    (maxDepth : Nat) (rootId : String) (rootNode : LineageNode) (s : BfsState)
    (hinv : nodesInv store rootId rootNode maxDepth s) :
    nodesInv store rootId rootNode maxDepth (bfsStep store works maxDepth s) := by
  cases hq : s.queue with
  | nil =>
    rw [bfsStep_queue_nil store works maxDepth s hq]
    exact hinv
  | cons item rest =>
    by_cases hge : maxDepth ≤ item.currentDepth
    · rw [bfsStep_skip_depth store works maxDepth s item rest hq hge]
      exact hinv
    · by_cases hv : (item.workId, item.direction) ∈ s.visited
      · rw [bfsStep_skip_visited store works maxDepth s item rest hq
          (by omega) hv]
        exact hinv
      · cases hdir : item.direction with
        | up =>
          rw [bfsStep_expand_up store works maxDepth s item rest hq
            (by omega) hv hdir]
          exact foldl_recordUpEdge_nodesInv store rootId rootNode maxDepth
            works item.currentDepth _ _ (by omega)
            (fun e he => (List.mem_filter.mp he).1) hinv
        | down =>
          rw [bfsStep_expand_down store works maxDepth s item rest hq
            (by omega) hv hdir]
          exact foldl_recordDownEdge_nodesInv store rootId rootNode maxDepth
            works item.currentDepth _ _ (by omega)
            (fun e he => (List.mem_filter.mp he).1) hinv

theorem bfsAux_nodesInv (store : List WorkEdge) (works : List Work)
    (maxDepth : Nat) (rootId : String) (rootNode : LineageNode) (n : Nat)
    (s : BfsState) (hinv : nodesInv store rootId rootNode maxDepth s) :
    nodesInv store rootId rootNode maxDepth
      (bfsAux store works maxDepth n s) := by
  induction n generalizing s with
  | zero => exact hinv
  | succ n ih =>
    cases hq : s.queue with
    | nil =>
      rw [bfsAux_queue_nil store works maxDepth (n + 1) s hq]
      exact hinv
    | cons item rest =>
      rw [bfsAux_succ_cons store works maxDepth n s item rest hq]
      exact ih _ (bfsStep_nodesInv store works maxDepth rootId rootNode s hinv)

/-- C8: for every store, root and depth bound N, buildGraph never returns a
node whose absolute depth exceeds N; the root is present at depth zero and
is the only node at depth zero; a node with negative depth was discovered
upward (it is the source of some stored edge) and a node with positive depth
downward (the target of some stored edge); and the node map is
first-write-wins: an entry present after any number of loop iterations is
still present, unchanged, after any further iterations. -/
theorem buildGraph_depth_properties (st : Store) (idArg : String) (N : Nat)
    (root : Work) (g : LineageGraph)
    (hf : findWork st.works idArg = some root)
    (hg : buildGraph st idArg N = .ok g) :
    (∀ node ∈ g.nodes, node.depth.natAbs ≤ N ∧
      (node.depth = 0 → node = ⟨root.id, root.slug, root.title, root.status, 0⟩) ∧
      (node.depth < 0 → ∃ e ∈ st.edges, e.fromWorkId = node.id) ∧
      (0 < node.depth → ∃ e ∈ st.edges, e.toWorkId = node.id)) ∧
    (∃ node ∈ g.nodes, node.id = root.id ∧ node.depth = 0) ∧
    (∀ n m k v,
      (bfsAux st.edges st.works N n (initState root)).nodes.lookup k = some v →
      (bfsAux st.edges st.works N m
        (bfsAux st.edges st.works N n (initState root))).nodes.lookup k =
        some v) := by
  unfold buildGraph at hg
  rw [hf] at hg
  injection hg with hg
  subst hg
  have hinv : nodesInv st.edges root.id
      ⟨root.id, root.slug, root.title, root.status, 0⟩ N
      (bfsAux st.edges st.works N (bfsFuel st.edges root.id)
        (initState root)) := by
    apply bfsAux_nodesInv
    intro p hp
    have hp' : p = (root.id, ⟨root.id, root.slug, root.title, root.status, 0⟩) := by
      simpa [initState] using hp
    subst hp'
    refine ⟨rfl, by simp, fun _ => ⟨rfl, rfl⟩, ?_, ?_⟩
    · intro h
      exact absurd h (by simp)
    · intro h
      exact absurd h (by simp)
  refine ⟨?_, ?_, ?_⟩
  · intro node hnode
    obtain ⟨p, hp, hpe⟩ := List.mem_map.mp hnode
    obtain ⟨hid, habs, h0, hneg, hpos⟩ := hinv p hp
    subst hpe
    refine ⟨habs, fun hd0 => (h0 hd0).2, ?_, ?_⟩
    · intro hdneg
      obtain ⟨e, he, heq⟩ := hneg hdneg
      exact ⟨e, he, by rw [hid]; exact heq⟩
    · intro hdpos
      obtain ⟨e, he, heq⟩ := hpos hdpos
      exact ⟨e, he, by rw [hid]; exact heq⟩
  · have hlook : (initState root).nodes.lookup root.id =
        some ⟨root.id, root.slug, root.title, root.status, 0⟩ := by
      simp [initState]
    have hfinal := bfsAux_lookup_mono st.edges st.works N
      (bfsFuel st.edges root.id) hlook
    obtain ⟨l₁, l₂, hl, -⟩ := List.lookup_eq_some_iff.mp hfinal
    refine ⟨⟨root.id, root.slug, root.title, root.status, 0⟩, ?_, rfl, rfl⟩
    have hmem : (root.id, (⟨root.id, root.slug, root.title, root.status, 0⟩ :
        LineageNode)) ∈ (bfsAux st.edges st.works N (bfsFuel st.edges root.id)
          (initState root)).nodes := by
      rw [hl]
      exact List.mem_append_right _ (List.mem_cons_self _ _)
    exact List.mem_map_of_mem Prod.snd hmem
  · intro n m k v h
    exact bfsAux_lookup_mono st.edges st.works N m h

/-- The lineage graph of A in the cyclic fixture at depth 2. -/
def cycleGraph : LineageGraph :=
  ⟨[⟨"A", "slug-a", "Work A", .JAM, 0⟩, ⟨"B", "slug-b", "Work B", .JAM, -1⟩],
    [⟨2, "B", "A", .DERIVED⟩, ⟨1, "A", "B", .FORK⟩, ⟨1, "A", "B", .FORK⟩]⟩

/-- C8 witness: the depth theorem applied to the cyclic fixture, including a
first-write-wins instance across further iterations. -/
theorem buildGraph_depth_properties_witness :
    (∃ node ∈ cycleGraph.nodes, node.id = wA.id ∧ node.depth = 0) ∧
    (bfsAux cycleStore.edges cycleStore.works 2 4
      (bfsAux cycleStore.edges cycleStore.works 2 3 (initState wA))).nodes.lookup
      "B" = some ⟨"B", "slug-b", "Work B", .JAM, -1⟩ :=
  ⟨(buildGraph_depth_properties cycleStore "A" 2 wA cycleGraph (by decide)
      (by decide)).2.1,
    (buildGraph_depth_properties cycleStore "A" 2 wA cycleGraph (by decide)
      (by decide)).2.2 3 4 "B" ⟨"B", "slug-b", "Work B", .JAM, -1⟩ (by decide)⟩

end Canora
